import Mathlib

/-!
Verification of the MCA engine in src/mca.py (Multiple Correspondence Analysis).

The scalar/list-level logic of the engine (eigenvalue correction, rank
determination, retained-dimension count, argument validation, sparse-mode
bookkeeping) is embedded over an arbitrary linear ordered field, instantiated
at ℚ for executable witnesses.  The matrix-level factor-score computations of
`_calc_row_factor_scores`, `_calc_col_factor_scores` and `fs_r_sup` are
embedded over ℝ (they involve square roots), with the SVD backend (numpy svd /
scipy svds, an external collaborator per the spec) represented by its output
(P, s, Q) together with the predicate IsSVD stating that this output is a
genuine singular value decomposition.  Floating-point arithmetic is modelled
by exact field arithmetic; the machine-epsilon regularizer eps = 2^-52 that
the source adds under the square roots (line 83-84) is taken as 0, which is
the exact-arithmetic reading of "within floating tolerance".
-/

namespace MCA

/-- Running totals of a list, numpy cumsum: entry i is the sum of the first
i+1 elements. -/
def cumsum {α : Type*} [AddCommMonoid α] (L : List α) : List α :=
  (List.range L.length).map (fun i => (L.take (i + 1)).sum)

/-- Models numpy argmax over the boolean mask (E < tol): the index of the
first element strictly below tol, and 0 when no element is below tol
(numpy argmax of an all-False mask is 0).  From line 102 of src/mca.py. -/
def npArgmaxBelow {α : Type*} [LinearOrder α] (E : List α) (tol : α) : ℕ :=
  if E.findIdx (fun e => decide (e < tol)) = E.length then 0
  else E.findIdx (fun e => decide (e < tol))

/-- Spec-side definition (not from the source): the position of the first
element of E strictly below tol, none if every element is ≥ tol.  Used to
state the claimed rank characterization. -/
def specFirstBelow {α : Type*} [LinearOrder α] (E : List α) (tol : α) : Option ℕ :=
  if E.findIdx (fun e => decide (e < tol)) = E.length then Option.none
  else some (E.findIdx (fun e => decide (e < tol)))

/-- Rank determination of _fit, lines 102-103:
self.rank = argmax(E < self.tol); if not self.rank: self.rank = len(E). -/
def fitRank {α : Type*} [LinearOrder α] (E : List α) (tol : α) : ℕ :=
  if npArgmaxBelow E tol = 0 then E.length else npArgmaxBelow E tol

/-- One term of _apply_benzecri_correction (lines 106-110), applied to a
squared singular value e = sigma^2:
(K/(K-1.)*(e - 1./K))**2 if e > 1./K else 0.
Python raises ZeroDivisionError at K = 1 (so no fit with the correction
enabled succeeds there); in this field model division by zero yields 0.
All claims instantiate K ≥ 2. -/
def benzecriTerm {α : Type*} [LinearOrderedField α] (K : ℕ) (e : α) : α :=
  if 1 / (K : α) < e then ((K : α) / ((K : α) - 1) * (e - 1 / (K : α))) ^ 2 else 0

/-- Lines 106-110: the corrected eigenvalue list, mapping benzecriTerm over
the squared singular values self.s**2. -/
def apply_benzecri_correction {α : Type*} [LinearOrderedField α]
    (K : ℕ) (s : List α) : List α :=
  (s.map (fun sv => sv ^ 2)).map (benzecriTerm K)

/-- Line 100 of _fit: the eigenvalue vector E, Benzécri-corrected when the
flag is set, otherwise the raw squared singular values. -/
def fitE {α : Type*} [LinearOrderedField α] (benzecri : Bool) (K : ℕ)
    (s : List α) : List α :=
  if benzecri then apply_benzecri_correction K s else s.map (fun sv => sv ^ 2)

/-- Line 104 of _fit: L = E[:rank]. -/
def fitL {α : Type*} [LinearOrderedField α] (E : List α) (tol : α) : List α :=
  E.take (fitRank E tol)

/-- Lines 128 and 156: self.k = 1 + flatnonzero(cumsum(self.L) >= sum(self.L)*percent)[0].
When no running total reaches the threshold Python raises IndexError; this
total model then returns L.length + 1 (the theorems show the reachable cases
always find an index). -/
def calcK {α : Type*} [LinearOrderedField α] (L : List α) (percent : α) : ℕ :=
  1 + (cumsum L).findIdx (fun x => decide (L.sum * percent ≤ x))

/-- A Python value passed as the argument N (or ncols): absent, an int, or a
non-integer number.  int64 is merged with int, as in the source's isinstance
check on line 125. -/
inductive PyVal where
  | none : PyVal
  | int : ℤ → PyVal
  | float : ℚ → PyVal
deriving DecidableEq

/-- Python truthiness of such a value: None, 0 and 0.0 are falsy. -/
def PyVal.truthy : PyVal → Bool
  | PyVal.none => false
  | PyVal.int z => decide (z ≠ 0)
  | PyVal.float q => decide (q ≠ 0)

/-- Whether the value is a positive integer, the test of lines 125-126 and
151-152: isinstance(N, (int, int64)) and N > 0. -/
def PyVal.isPosInt : PyVal → Bool
  | PyVal.int z => decide (0 < z)
  | _ => false

/-- The argument-validation prologue shared verbatim by
_calc_row_factor_scores (lines 122-127) and _calc_col_factor_scores
(lines 148-153): true iff a ValueError is raised.  Note the inner check runs
only under the truthiness test if N:. -/
def factorScoresArgError (percent : ℚ) (N : PyVal) : Bool :=
  if ¬ (0 ≤ percent ∧ percent ≤ 1) then true
  else if N.truthy then ! N.isPosInt else false

/-- Retained factor count num2ret = N if N else self.k (lines 127 and 132),
where a truthy N has first been clamped by N = min(N, self.rank): the
clamped value can itself be falsy (0, when rank = 0) in which case the
fallback k applies.  A non-int truthy N never reaches this point (the
validation raised). -/
def calcNum2Ret (k rank : ℕ) (N : PyVal) : ℕ :=
  match N with
  | PyVal.int z =>
      if z = 0 then k
      else if min z (rank : ℤ) = 0 then k else (min z (rank : ℤ)).toNat
  | _ => k

/-- Control-flow model of _calc_row_factor_scores (lines 112-136), returning
.error on a raised exception and otherwise .ok (k, num2ret), where k is the
cached retained-dimension count of line 128 and num2ret the number of columns
of the returned score matrix F = D_r . P . diagsvd(s[:num2ret], numitems,
num2ret) (lines 132-135).  Arguments: L and rank as stored by _fit. -/
def calcRowFactorScoresShape (L : List ℚ) (rank : ℕ) (percent : ℚ)
    (N : PyVal) : Except String (ℕ × ℕ) :=
  if factorScoresArgError percent N then Except.error "ValueError"
  else if L.length < calcK L percent then Except.error "IndexError"
  else Except.ok (calcK L percent, calcNum2Ret (calcK L percent) rank N)

/-- Control-flow model of _calc_col_factor_scores (lines 138-164); the raise
conditions, k, and the column count num2ret of
G = D_c . Q^T . diagsvd(s[:num2ret], len(Q), num2ret) are computed exactly as
in the row case. -/
def calcColFactorScoresShape (L : List ℚ) (rank : ℕ) (percent : ℚ)
    (N : PyVal) : Except String (ℕ × ℕ) :=
  if factorScoresArgError percent N then Except.error "ValueError"
  else if L.length < calcK L percent then Except.error "IndexError"
  else Except.ok (calcK L percent, calcNum2Ret (calcK L percent) rank N)

/-- process_df (lines 12-27), reduced to the data the error analysis needs:
cols is the column selection (Python None and the empty list are both falsy
on line 13 and are merged into []), ncols the explicit coded-column count,
dfNumCols the number of columns of the DataFrame.  Returns the category
count K on success.  _fit invokes this on line 76 before any other work, so
every error here is raised at fit time, before the decomposition. -/
def process_df (cols : List String) (ncols : PyVal) (dfNumCols : ℕ) :
    Except String ℕ :=
  if cols ≠ [] then Except.ok cols.length
  else
    match ncols with
    | PyVal.none =>
        if dfNumCols = 0 then Except.error "Your DataFrame has no columns."
        else Except.ok dfNumCols
    | PyVal.int z =>
        if z ≤ 0 ∨ (dfNumCols : ℤ) < z then
          Except.error "You must pass a valid number of columns."
        else Except.ok z.toNat
    | PyVal.float _ =>
        Except.error "You must pass a valid number of columns."

/-- Number of singular triplets requested from the sparse solver on line 89:
min(product.shape)-1 if self.n_cols is None else self.n_cols. -/
def svdsK (shape : ℕ × ℕ) (ncols : Option ℕ) : ℕ :=
  match ncols with
  | Option.none => min shape.1 shape.2 - 1
  | some k => k

/-- Line 94: in sparse mode self._numitems = min(product.shape)-1,
unconditionally. -/
def sparseNumItems (shape : ℕ × ℕ) : ℕ := min shape.1 shape.2 - 1

/-- Lines 91-93 of the sparse path: the stored decomposition reverses the
solver output, P by columns (P.T[::-1].T), s and Q by rows.  P is represented
by its list of columns and Q by its list of rows. -/
def sparseStore (Pcols : List (List ℚ)) (s : List ℚ) (Qrows : List (List ℚ)) :
    List (List ℚ) × List ℚ × List (List ℚ) :=
  (Pcols.reverse, s.reverse, Qrows.reverse)

/-- Line 97 of the dense path: the svd output is stored unchanged. -/
def denseStore (Pcols : List (List ℚ)) (s : List ℚ) (Qrows : List (List ℚ)) :
    List (List ℚ) × List ℚ × List (List ℚ) :=
  (Pcols, s, Qrows)

section RankLemmas

variable {α : Type*} [LinearOrderedField α]

lemma fitRank_le_length (E : List α) (tol : α) : fitRank E tol ≤ E.length := by
  unfold fitRank npArgmaxBelow
  split_ifs with h1 h2 h3 <;>
    simp_all [List.findIdx_le_length]

lemma fitRank_pos (E : List α) (tol : α) (hE : E ≠ []) : 1 ≤ fitRank E tol := by
  unfold fitRank
  split_ifs with h
  · have : 0 < E.length := List.length_pos.mpr hE
    omega
  · omega

lemma fitE_length (benzecri : Bool) (K : ℕ) (s : List α) :
    (fitE benzecri K s).length = s.length := by
  cases benzecri <;> simp [fitE, apply_benzecri_correction]

lemma benzecriTerm_nonneg (K : ℕ) (e : α) : 0 ≤ benzecriTerm K e := by
  unfold benzecriTerm
  split_ifs
  · exact sq_nonneg _
  · exact le_refl 0

lemma fitE_nonneg (benzecri : Bool) (K : ℕ) (s : List α) :
    ∀ x ∈ fitE benzecri K s, 0 ≤ x := by
  intro x hx
  cases benzecri with
  | false =>
      simp only [fitE, Bool.false_eq_true, if_false, List.mem_map] at hx
      obtain ⟨sv, -, rfl⟩ := hx
      exact sq_nonneg sv
  | true =>
      simp only [fitE, if_true, apply_benzecri_correction, List.mem_map] at hx
      obtain ⟨e, -, rfl⟩ := hx
      exact benzecriTerm_nonneg K e

lemma fitL_length (E : List α) (tol : α) :
    (fitL E tol).length = fitRank E tol := by
  simp [fitL, fitRank_le_length]

lemma fitL_nonneg (benzecri : Bool) (K : ℕ) (s : List α) (tol : α) :
    ∀ x ∈ fitL (fitE benzecri K s) tol, 0 ≤ x := by
  intro x hx
  exact fitE_nonneg benzecri K s x (List.take_subset _ _ hx)

lemma cumsum_length (L : List α) : (cumsum L).length = L.length := by
  simp [cumsum]

lemma cumsum_getElem (L : List α) (i : ℕ) (h : i < (cumsum L).length) :
    (cumsum L)[i] = (L.take (i + 1)).sum := by
  simp [cumsum]

lemma calcK_le (L : List α) (percent : α)
    (hnn : ∀ x ∈ L, 0 ≤ x) (hL : L ≠ []) (hp : percent ≤ 1) :
    calcK L percent ≤ L.length := by
  have hlen : 0 < L.length := List.length_pos.mpr hL
  have hclen : (cumsum L).length = L.length := cumsum_length L
  have hsum : 0 ≤ L.sum := List.sum_nonneg hnn
  have hidx : L.length - 1 < (cumsum L).length := by omega
  have hval : (cumsum L)[L.length - 1] = L.sum := by
    rw [cumsum_getElem L _ hidx]
    have : L.length - 1 + 1 = L.length := by omega
    rw [this, List.take_length]
  have hex : ∃ x ∈ cumsum L, (decide (L.sum * percent ≤ x)) = true := by
    refine ⟨(cumsum L)[L.length - 1], List.getElem_mem _, ?_⟩
    rw [hval, decide_eq_true_eq]
    exact mul_le_of_le_one_right hsum hp
  have := List.findIdx_lt_length_of_exists hex
  unfold calcK
  omega

lemma calcK_reaches (L : List α) (percent : α)
    (hle : calcK L percent ≤ L.length) :
    L.sum * percent ≤ (L.take (calcK L percent)).sum := by
  have hclen : (cumsum L).length = L.length := cumsum_length L
  have hidx : (cumsum L).findIdx (fun x => decide (L.sum * percent ≤ x)) <
      (cumsum L).length := by
    unfold calcK at hle
    omega
  have hfound := List.findIdx_getElem (w := hidx)
  rw [cumsum_getElem L _ hidx] at hfound
  rw [decide_eq_true_eq] at hfound
  have harg : (cumsum L).findIdx (fun x => decide (L.sum * percent ≤ x)) + 1 =
      calcK L percent := by
    unfold calcK
    omega
  rwa [harg] at hfound

lemma calcK_minimal (L : List α) (percent : α) (j : ℕ)
    (h1 : 1 ≤ j) (h2 : j < calcK L percent) :
    (L.take j).sum < L.sum * percent := by
  have hlt : j - 1 < (cumsum L).findIdx (fun x => decide (L.sum * percent ≤ x)) := by
    unfold calcK at h2
    omega
  have hlen : j - 1 < (cumsum L).length :=
    lt_of_lt_of_le hlt (List.findIdx_le_length _)
  have hfail := List.not_of_lt_findIdx hlt
  rw [cumsum_getElem L _ hlen] at hfail
  have hj : j - 1 + 1 = j := by omega
  rw [hj] at hfail
  simpa using hfail

end RankLemmas

/-- The truncated eigenvalue list L stored by _fit (line 104) for a fit with
the given correction flag, category count K, tolerance and backend singular
values s. -/
def fittedL {α : Type*} [LinearOrderedField α] (benzecri : Bool) (K : ℕ)
    (tol : α) (s : List α) : List α :=
  fitL (fitE benzecri K s) tol

lemma fittedL_nonneg {α : Type*} [LinearOrderedField α] (benzecri : Bool)
    (K : ℕ) (tol : α) (s : List α) : ∀ x ∈ fittedL benzecri K tol s, 0 ≤ x :=
  fitL_nonneg benzecri K s tol

lemma fittedL_ne_nil {α : Type*} [LinearOrderedField α] (benzecri : Bool)
    (K : ℕ) (tol : α) (s : List α) (hs : s ≠ []) :
    fittedL benzecri K tol s ≠ [] := by
  have hE : fitE benzecri K s ≠ [] := by
    have := fitE_length benzecri K s
    intro hcon
    rw [hcon] at this
    exact hs (List.length_eq_zero.mp this.symm)
  have h1 := fitRank_pos (fitE benzecri K s) tol hE
  have h2 := fitL_length (fitE benzecri K s) tol
  intro hcon
  unfold fittedL at hcon
  rw [hcon] at h2
  simp at h2
  omega

section ConcreteEvaluations

/-- Evaluation helper: the Benzécri term at squared singular value 0. -/
lemma benzecriTerm_zero : benzecriTerm 2 (0 : ℚ) = 0 := by
  unfold benzecriTerm
  rw [if_neg (by norm_num)]

/-- Evaluation helper: the Benzécri term at squared singular value 1 and
K = 2 is 1. -/
lemma benzecriTerm_one : benzecriTerm 2 (1 : ℚ) = 1 := by
  unfold benzecriTerm
  rw [if_pos (by norm_num)]
  norm_num

lemma fitE_two_zeros : fitE true 2 ([0, 0] : List ℚ) = [0, 0] := by
  simp [fitE, apply_benzecri_correction, benzecriTerm_zero]

lemma fitE_one_zero : fitE true 2 ([1, 0] : List ℚ) = [1, 0] := by
  simp [fitE, apply_benzecri_correction, benzecriTerm_zero, benzecriTerm_one]

lemma findIdx_below_two_zeros :
    List.findIdx (fun e => decide (e < (1 : ℚ) / 10000)) [0, 0] = 0 := by
  rw [List.findIdx_cons, decide_eq_true (show (0 : ℚ) < 1 / 10000 by norm_num)]
  rfl

lemma findIdx_below_one_zero :
    List.findIdx (fun e => decide (e < (1 : ℚ) / 10000)) [1, 0] = 1 := by
  rw [List.findIdx_cons, decide_eq_false (show ¬ (1 : ℚ) < 1 / 10000 by norm_num)]
  rw [show (cond false 0 (List.findIdx (fun e => decide (e < (1 : ℚ) / 10000)) [0] + 1)) =
      List.findIdx (fun e => decide (e < (1 : ℚ) / 10000)) [0] + 1 from rfl]
  rw [List.findIdx_cons, decide_eq_true (show (0 : ℚ) < 1 / 10000 by norm_num)]
  rfl

lemma fitRank_two_zeros : fitRank ([0, 0] : List ℚ) ((1 : ℚ) / 10000) = 2 := by
  unfold fitRank npArgmaxBelow
  rw [findIdx_below_two_zeros]
  norm_num

lemma specFirstBelow_two_zeros :
    specFirstBelow ([0, 0] : List ℚ) ((1 : ℚ) / 10000) = some 0 := by
  unfold specFirstBelow
  rw [findIdx_below_two_zeros]
  norm_num

lemma specFirstBelow_one_zero :
    specFirstBelow ([1, 0] : List ℚ) ((1 : ℚ) / 10000) = some 1 := by
  unfold specFirstBelow
  rw [findIdx_below_one_zero]
  norm_num

lemma fitRank_one_zero : fitRank ([1, 0] : List ℚ) ((1 : ℚ) / 10000) = 1 := by
  unfold fitRank npArgmaxBelow
  rw [findIdx_below_one_zero]
  norm_num

end ConcreteEvaluations

/-- Claim C1, counterexample.  A fit whose standardized residual matrix is
zero has all singular values zero; with the default Benzécri correction and
K = 2 the eigenvalue vector is [0, 0], whose first entry (index 0) is below
tol = 1e-4.  The claim says the rank equals that first-below index, 0; the
code (argmax followed by the if-not-rank fallback on line 103) stores 2. -/
theorem rank_first_below_claim_false :
    fitE true 2 ([0, 0] : List ℚ) = [0, 0] ∧
    specFirstBelow (fitE true 2 ([0, 0] : List ℚ)) ((1 : ℚ) / 10000) = some 0 ∧
    fitRank (fitE true 2 ([0, 0] : List ℚ)) ((1 : ℚ) / 10000) = 2 := by
  refine ⟨fitE_two_zeros, ?_, ?_⟩ <;> rw [fitE_two_zeros]
  · exact specFirstBelow_two_zeros
  · exact fitRank_two_zeros

/-- Claim C1, amended: the stored rank equals the index of the first
eigenvalue below tol whenever that index is positive; it equals the total
eigenvalue count both when no eigenvalue is below tol and when the very
first eigenvalue (index 0) is below tol (the code cannot distinguish these
two cases, both make argmax return 0). -/
theorem rank_characterization {α : Type*} [LinearOrderedField α]
    (E : List α) (tol : α) :
    (specFirstBelow E tol = Option.none → fitRank E tol = E.length) ∧
    (specFirstBelow E tol = some 0 → fitRank E tol = E.length) ∧
    (∀ i : ℕ, specFirstBelow E tol = some i → 0 < i → fitRank E tol = i) := by
  unfold specFirstBelow fitRank npArgmaxBelow
  split_ifs with h1 h2 h3 <;>
    refine ⟨?_, ?_, ?_⟩ <;> intros <;> simp_all

/-- Witness for rank_characterization at the concrete eigenvalue vector
[1, 0] with the default tolerance: the first below-tolerance index is 1 and
the rank is 1. -/
theorem rank_characterization_witness :
    specFirstBelow ([1, 0] : List ℚ) ((1 : ℚ) / 10000) = some 1 ∧
    fitRank ([1, 0] : List ℚ) ((1 : ℚ) / 10000) = 1 :=
  ⟨specFirstBelow_one_zero,
   (rank_characterization ([1, 0] : List ℚ) ((1 : ℚ) / 10000)).2.2 1
     specFirstBelow_one_zero (by norm_num)⟩

/-- Claim C2: for K ≥ 2 the Benzécri-corrected eigenvalue of a singular
value sv is (K/(K-1) * (sv^2 - 1/K))^2 when sv^2 > 1/K and 0 otherwise, and
every corrected eigenvalue is nonnegative. -/
theorem benzecri_correction_formula (K : ℕ) (hK : 2 ≤ K) (sv : ℚ)
    (s : List ℚ) :
    benzecriTerm K (sv ^ 2) =
      (if 1 / (K : ℚ) < sv ^ 2
       then ((K : ℚ) / ((K : ℚ) - 1) * (sv ^ 2 - 1 / (K : ℚ))) ^ 2 else 0) ∧
    0 ≤ benzecriTerm K (sv ^ 2) ∧
    ∀ x ∈ apply_benzecri_correction K s, 0 ≤ x := by
  refine ⟨rfl, benzecriTerm_nonneg K _, ?_⟩
  intro x hx
  simp only [apply_benzecri_correction, List.mem_map] at hx
  obtain ⟨e, -, rfl⟩ := hx
  exact benzecriTerm_nonneg K e

/-- Witness for benzecri_correction_formula at K = 2, sv = 1. -/
theorem benzecri_correction_formula_witness :
    0 ≤ benzecriTerm 2 ((1 : ℚ) ^ 2) :=
  (benzecri_correction_formula 2 (by norm_num) 1 []).2.1

/-- Claim C10: for a non-empty eigenvalue vector the stored rank is at least
1 and at most the eigenvalue count, and L = E[:rank] is never empty. -/
theorem rank_in_bounds {α : Type*} [LinearOrderedField α]
    (E : List α) (tol : α) (hE : E ≠ []) :
    1 ≤ fitRank E tol ∧ fitRank E tol ≤ E.length ∧ fitL E tol ≠ [] := by
  refine ⟨fitRank_pos E tol hE, fitRank_le_length E tol, ?_⟩
  have h1 := fitRank_pos E tol hE
  have h2 := fitL_length E tol
  intro hcon
  rw [hcon] at h2
  simp at h2
  omega

/-- Witness for rank_in_bounds at the eigenvalue vector [1, 1]. -/
theorem rank_in_bounds_witness :
    1 ≤ fitRank ([1, 1] : List ℚ) ((1 : ℚ) / 10000) ∧
    fitRank ([1, 1] : List ℚ) ((1 : ℚ) / 10000) ≤ ([1, 1] : List ℚ).length ∧
    fitL ([1, 1] : List ℚ) ((1 : ℚ) / 10000) ≠ [] :=
  rank_in_bounds ([1, 1] : List ℚ) ((1 : ℚ) / 10000) (by simp)

/-- Claim C4: for every fitted instance and percent in [0, 1], the k of
lines 128 and 156 is the 1-indexed smallest index at which the running total
of L reaches percent times the total of L, and percent = 0 yields k = 1. -/
theorem retained_dimension_count_least (benzecri : Bool) (K : ℕ) (tol : ℚ)
    (s : List ℚ) (percent : ℚ) (hs : s ≠ []) (hbK : benzecri = true → 2 ≤ K)
    (hp0 : 0 ≤ percent) (hp1 : percent ≤ 1) :
    1 ≤ calcK (fittedL benzecri K tol s) percent ∧
    calcK (fittedL benzecri K tol s) percent ≤ (fittedL benzecri K tol s).length ∧
    percent * (fittedL benzecri K tol s).sum ≤
      ((fittedL benzecri K tol s).take (calcK (fittedL benzecri K tol s) percent)).sum ∧
    (∀ j : ℕ, 1 ≤ j → j < calcK (fittedL benzecri K tol s) percent →
      ((fittedL benzecri K tol s).take j).sum <
        percent * (fittedL benzecri K tol s).sum) ∧
    (percent = 0 → calcK (fittedL benzecri K tol s) percent = 1) := by
  have hnn := fittedL_nonneg benzecri K tol s
  have hne := fittedL_ne_nil benzecri K tol s hs
  have hle := calcK_le (fittedL benzecri K tol s) percent hnn hne hp1
  refine ⟨by unfold calcK; omega, hle, ?_, ?_, ?_⟩
  · rw [mul_comm]
    exact calcK_reaches (fittedL benzecri K tol s) percent hle
  · intro j hj1 hj2
    rw [mul_comm]
    exact calcK_minimal (fittedL benzecri K tol s) percent j hj1 hj2
  · intro hp
    by_contra hk
    have h1 : 1 ≤ calcK (fittedL benzecri K tol s) percent := by
      unfold calcK; omega
    have h2 : 1 < calcK (fittedL benzecri K tol s) percent := by omega
    have := calcK_minimal (fittedL benzecri K tol s) percent 1 (le_refl 1) h2
    rw [hp, mul_zero] at this
    have hnn1 : 0 ≤ ((fittedL benzecri K tol s).take 1).sum :=
      List.sum_nonneg (fun x hx => hnn x (List.take_subset _ _ hx))
    linarith

/-- Witness for retained_dimension_count_least: at a Benzécri-corrected fit
with singular values [1, 0] and percent = 0 the retained count is 1. -/
theorem retained_dimension_count_least_witness :
    calcK (fittedL true 2 ((1 : ℚ) / 10000) [1, 0]) 0 = 1 :=
  (retained_dimension_count_least true 2 ((1 : ℚ) / 10000) [1, 0] 0
    (by simp) (fun _ => by norm_num) (by norm_num) (by norm_num)).2.2.2.2 rfl

/-- Claim C5, counterexample.  With a valid percent and N = 0 the claim
demands an invalid-argument error (0 is not a positive integer), but the
code skips the whole check because 0 is falsy on line 124, and raises
nothing. -/
theorem factor_scores_arg_error_claim_false :
    factorScoresArgError (1 / 2) (PyVal.int 0) = false ∧
    PyVal.int 0 ≠ PyVal.none ∧ (PyVal.int 0).isPosInt = false := by
  refine ⟨?_, by simp, rfl⟩
  unfold factorScoresArgError
  rw [if_neg (not_not_intro ⟨by norm_num, by norm_num⟩)]
  rfl

/-- Claim C5, amended: the factor-score calculators raise an invalid-argument
error exactly when percent is outside [0, 1], or the supplied N is truthy
(nonzero) and not a positive integer.  A supplied N of 0 (or 0.0, or None)
is treated as absent and does not raise. -/
theorem factor_scores_arg_error_iff (percent : ℚ) (N : PyVal) :
    factorScoresArgError percent N = true ↔
      (¬ (0 ≤ percent ∧ percent ≤ 1) ∨
        (N.truthy = true ∧ N.isPosInt = false)) := by
  unfold factorScoresArgError
  split_ifs with h1 h2 <;> simp_all

/-- Claim C6: requesting an explicit factor count N greater than the stored
rank raises nothing in either score calculator; N is clamped to rank and
the returned score matrix has exactly rank columns (second component of the
result pair, the num2ret used to dimension diagsvd). -/
theorem requesting_N_above_rank_clamps (benzecri : Bool) (K : ℕ) (tol : ℚ)
    (s : List ℚ) (percent : ℚ) (z : ℤ) (hs : s ≠ [])
    (hbK : benzecri = true → 2 ≤ K) (hp0 : 0 ≤ percent) (hp1 : percent ≤ 1)
    (hz : (fitRank (fitE benzecri K s) tol : ℤ) < z) :
    calcRowFactorScoresShape (fittedL benzecri K tol s)
        (fitRank (fitE benzecri K s) tol) percent (PyVal.int z) =
      Except.ok (calcK (fittedL benzecri K tol s) percent,
        fitRank (fitE benzecri K s) tol) ∧
    calcColFactorScoresShape (fittedL benzecri K tol s)
        (fitRank (fitE benzecri K s) tol) percent (PyVal.int z) =
      Except.ok (calcK (fittedL benzecri K tol s) percent,
        fitRank (fitE benzecri K s) tol) := by
  have hE : fitE benzecri K s ≠ [] := by
    have := fitE_length benzecri K s
    intro hcon
    rw [hcon] at this
    exact hs (List.length_eq_zero.mp this.symm)
  have hrank := fitRank_pos (fitE benzecri K s) tol hE
  have hz0 : z ≠ 0 := by omega
  have hzpos : 0 < z := by omega
  have hargs : factorScoresArgError percent (PyVal.int z) = false := by
    unfold factorScoresArgError PyVal.truthy PyVal.isPosInt
    simp [hp0, hp1, hz0, hzpos]
  have hnn := fittedL_nonneg benzecri K tol s
  have hne := fittedL_ne_nil benzecri K tol s hs
  have hk := calcK_le (fittedL benzecri K tol s) percent hnn hne hp1
  have hmin : min z (fitRank (fitE benzecri K s) tol : ℤ) =
      (fitRank (fitE benzecri K s) tol : ℤ) := min_eq_right (by omega)
  have hminne : min z (fitRank (fitE benzecri K s) tol : ℤ) ≠ 0 := by
    rw [hmin]
    omega
  have hnum : calcNum2Ret (calcK (fittedL benzecri K tol s) percent)
      (fitRank (fitE benzecri K s) tol) (PyVal.int z) =
      fitRank (fitE benzecri K s) tol := by
    simp only [calcNum2Ret]
    rw [if_neg hz0, if_neg hminne, hmin, Int.toNat_natCast]
  constructor <;>
  · simp only [calcRowFactorScoresShape, calcColFactorScoresShape]
    rw [hargs]
    simp only [Bool.false_eq_true, if_false]
    rw [if_neg (by omega), hnum]

/-- Witness for requesting_N_above_rank_clamps: a Benzécri fit with singular
values [1, 0] has rank 1; requesting N = 5 succeeds and retains 1 factor. -/
theorem requesting_N_above_rank_clamps_witness :
    calcRowFactorScoresShape (fittedL true 2 ((1 : ℚ) / 10000) [1, 0])
        (fitRank (fitE true 2 ([1, 0] : List ℚ)) ((1 : ℚ) / 10000)) (9 / 10)
        (PyVal.int 5) =
      Except.ok (calcK (fittedL true 2 ((1 : ℚ) / 10000) [1, 0]) (9 / 10),
        fitRank (fitE true 2 ([1, 0] : List ℚ)) ((1 : ℚ) / 10000)) ∧
    calcColFactorScoresShape (fittedL true 2 ((1 : ℚ) / 10000) [1, 0])
        (fitRank (fitE true 2 ([1, 0] : List ℚ)) ((1 : ℚ) / 10000)) (9 / 10)
        (PyVal.int 5) =
      Except.ok (calcK (fittedL true 2 ((1 : ℚ) / 10000) [1, 0]) (9 / 10),
        fitRank (fitE true 2 ([1, 0] : List ℚ)) ((1 : ℚ) / 10000)) :=
  requesting_N_above_rank_clamps true 2 ((1 : ℚ) / 10000) [1, 0] (9 / 10) 5
    (by simp) (fun _ => by norm_num) (by norm_num) (by norm_num)
    (by rw [fitE_one_zero, fitRank_one_zero]; norm_num)

/-- Claim C7, counterexample.  With shape (3, 4) and an explicit coded-column
count of 1, the sparse path computes 1 singular triplet but dimensions the
later diagonal score matrices with numitems = min(3, 4) - 1 = 2. -/
theorem sparse_triplets_claim_false :
    svdsK (3, 4) (some 1) = 1 ∧ sparseNumItems (3, 4) = 2 := by decide

/-- Claim C7, amended: in sparse mode the solver is asked for
min(shape)-1 triplets, or the explicit coded-column count when provided, but
numitems is min(shape)-1 unconditionally; the two agree exactly when no
explicit count is provided or the count happens to equal min(shape)-1. -/
theorem sparse_numitems_eq (s1 s2 k : ℕ) :
    sparseNumItems (s1, s2) = min s1 s2 - 1 ∧
    svdsK (s1, s2) Option.none = sparseNumItems (s1, s2) ∧
    (svdsK (s1, s2) (some k) = sparseNumItems (s1, s2) ↔ k = min s1 s2 - 1) :=
  ⟨rfl, rfl, Iff.rfl⟩

/-- Claim C8: the stored singular-value vector is sorted descending in both
decomposition paths, assuming the backend contracts stated by the spec (the
sparse solver svds returns ascending values, the dense svd returns descending
values), and in the sparse path the stored triplet j (column j of P, s[j],
row j of Q) is the solver triplet k-1-j, so the reversal keeps singular
values aligned with their singular vectors. -/
theorem stored_singular_values_descending (Pcols Qrows : List (List ℚ))
    (s sdense : List ℚ) (hasc : s.Sorted (· ≤ ·))
    (hdesc : sdense.Sorted (· ≥ ·))
    (hP : Pcols.length = s.length) (hQ : Qrows.length = s.length) :
    ((sparseStore Pcols s Qrows).2.1).Sorted (· ≥ ·) ∧
    ((denseStore Pcols sdense Qrows).2.1).Sorted (· ≥ ·) ∧
    (∀ j, j < s.length →
      (sparseStore Pcols s Qrows).1.getD j [] = Pcols.getD (s.length - 1 - j) [] ∧
      (sparseStore Pcols s Qrows).2.1.getD j 0 = s.getD (s.length - 1 - j) 0 ∧
      (sparseStore Pcols s Qrows).2.2.getD j [] = Qrows.getD (s.length - 1 - j) []) := by
  refine ⟨List.pairwise_reverse.mpr (by simpa using hasc), hdesc, ?_⟩
  intro j hj
  have hPr : j < Pcols.reverse.length := by simp [hP]; omega
  have hsr : j < s.reverse.length := by simp; omega
  have hQr : j < Qrows.reverse.length := by simp [hQ]; omega
  have hPo : Pcols.length - 1 - j < Pcols.length := by omega
  have hso : s.length - 1 - j < s.length := by omega
  have hQo : Qrows.length - 1 - j < Qrows.length := by omega
  refine ⟨?_, ?_, ?_⟩
  · rw [show (sparseStore Pcols s Qrows).1 = Pcols.reverse from rfl,
      List.getD_eq_getElem _ _ hPr, List.getD_eq_getElem _ _ (hP ▸ hso),
      List.getElem_reverse]
    exact getElem_congr (by omega)
  · rw [show (sparseStore Pcols s Qrows).2.1 = s.reverse from rfl,
      List.getD_eq_getElem _ _ hsr, List.getD_eq_getElem _ _ hso,
      List.getElem_reverse]
  · rw [show (sparseStore Pcols s Qrows).2.2 = Qrows.reverse from rfl,
      List.getD_eq_getElem _ _ hQr, List.getD_eq_getElem _ _ (hQ ▸ hso),
      List.getElem_reverse]
    exact getElem_congr (by omega)

/-- Witness for stored_singular_values_descending: the ascending solver
output [1, 2, 3] with matching singular-vector columns/rows is stored
descending, with the first stored triplet being the last solver triplet. -/
theorem stored_singular_values_descending_witness :
    ((sparseStore [[1], [2], [3]] ([1, 2, 3] : List ℚ) [[4], [5], [6]]).2.1).Sorted (· ≥ ·) ∧
    (sparseStore [[1], [2], [3]] ([1, 2, 3] : List ℚ) [[4], [5], [6]]).1.getD 0 [] =
      ([[1], [2], [3]] : List (List ℚ)).getD 2 [] ∧
    (sparseStore [[1], [2], [3]] ([1, 2, 3] : List ℚ) [[4], [5], [6]]).2.1.getD 0 0 =
      ([1, 2, 3] : List ℚ).getD 2 0 ∧
    (sparseStore [[1], [2], [3]] ([1, 2, 3] : List ℚ) [[4], [5], [6]]).2.2.getD 0 [] =
      ([[4], [5], [6]] : List (List ℚ)).getD 2 [] :=
  ⟨(stored_singular_values_descending [[1], [2], [3]] [[4], [5], [6]]
      ([1, 2, 3] : List ℚ) [] (by norm_num [List.sorted_cons]) (by simp) rfl rfl).1,
   (stored_singular_values_descending [[1], [2], [3]] [[4], [5], [6]]
      ([1, 2, 3] : List ℚ) [] (by norm_num [List.sorted_cons]) (by simp) rfl rfl).2.2
      0 (by norm_num)⟩

/-- Claim C9, counterexample.  When cols is specified (nonempty) the whole
ncols validation of lines 22-24 is skipped: an explicit count of 0 — not a
positive integer, which the claim says must raise — is silently ignored and
process_df succeeds. -/
theorem process_df_error_claim_false :
    process_df ["a"] (PyVal.int 0) 1 = Except.ok 1 ∧
    PyVal.int 0 ≠ PyVal.none ∧ (PyVal.int 0).isPosInt = false :=
  ⟨rfl, by simp, rfl⟩

/-- Claim C9, amended: process_df (invoked by _fit before any decomposition
work) raises an invalid-configuration error exactly when cols is unspecified
and either no explicit count is supplied and the table has zero columns, or
an explicit count is supplied that is not a positive integer no larger than
the column count.  A count supplied together with specified cols is ignored
entirely. -/
theorem process_df_error_iff (cols : List String) (ncols : PyVal) (d : ℕ) :
    (∃ e, process_df cols ncols d = Except.error e) ↔
      (cols = [] ∧ ((ncols = PyVal.none ∧ d = 0) ∨
        (ncols ≠ PyVal.none ∧
          ¬ ∃ z : ℤ, ncols = PyVal.int z ∧ 0 < z ∧ z ≤ (d : ℤ)))) := by
  by_cases hcols : cols = []
  · subst hcols
    rcases ncols with _ | z | q
    · by_cases hd : d = 0 <;> simp [process_df, hd]
    · by_cases hz : z ≤ 0 ∨ (d : ℤ) < z
      · simp only [process_df, ne_eq, not_true_eq_false, if_pos hz, if_false]
        simp
        omega
      · simp only [process_df, ne_eq, not_true_eq_false, if_neg hz, if_false]
        simp
        omega
    · simp [process_df]
  · simp [process_df, hcols]

section MatrixModel

open Matrix

variable {n m : ℕ}

/-- Total count S = X.sum().sum() of line 77. -/
noncomputable def totalSum (X : Matrix (Fin n) (Fin m) ℝ) : ℝ := ∑ i, ∑ j, X i j

/-- Correspondence matrix Z = X / S of line 78. -/
noncomputable def corrZ (X : Matrix (Fin n) (Fin m) ℝ) :
    Matrix (Fin n) (Fin m) ℝ :=
  (totalSum X)⁻¹ • X

/-- Row masses r = Z.sum(axis=1) of line 79. -/
noncomputable def rowMass (X : Matrix (Fin n) (Fin m) ℝ) (i : Fin n) : ℝ :=
  ∑ j, corrZ X i j

/-- Column masses c = Z.sum() of line 80. -/
noncomputable def colMass (X : Matrix (Fin n) (Fin m) ℝ) (j : Fin m) : ℝ :=
  ∑ i, corrZ X i j

/-- D_r = diag(1/(eps + sqrt(r))) of line 83, dense mode, with the machine
epsilon eps = 2^-52 of the float model taken as 0 in this exact-arithmetic
embedding (all the fits considered have strictly positive masses, where the
epsilon changes results only within floating tolerance). -/
noncomputable def Dr (X : Matrix (Fin n) (Fin m) ℝ) : Matrix (Fin n) (Fin n) ℝ :=
  Matrix.diagonal (fun i => (Real.sqrt (rowMass X i))⁻¹)

/-- D_c = diag(1/(eps + sqrt(c))) of line 84, same conventions as Dr. -/
noncomputable def Dc (X : Matrix (Fin n) (Fin m) ℝ) : Matrix (Fin m) (Fin m) ℝ :=
  Matrix.diagonal (fun j => (Real.sqrt (colMass X j))⁻¹)

/-- The standardized residual matrix product = D_r.dot(Z_c).dot(D_c) with
Z_c = Z - outer(r, c), lines 85-87. -/
noncomputable def resid (X : Matrix (Fin n) (Fin m) ℝ) :
    Matrix (Fin n) (Fin m) ℝ :=
  Dr X * (corrZ X - Matrix.of fun i j => rowMass X i * colMass X j) * Dc X

/-- scipy.linalg.diagsvd(v, M, N): the M x N rectangular diagonal matrix
carrying the list v on its main diagonal. -/
noncomputable def diagsvdM (v : List ℝ) (M N : ℕ) : Matrix (Fin M) (Fin N) ℝ :=
  Matrix.of fun i j => if (i : ℕ) = (j : ℕ) then v.getD i 0 else 0

/-- The scaling vector s = -sqrt(L) if self.benzecri else self.s, used with
L on lines 133 and 161 and with the full corrected list E on line 227. -/
noncomputable def scaleVec (benzecri : Bool) (L svals : List ℝ) : List ℝ :=
  if benzecri then L.map (fun e => -(Real.sqrt e)) else svals

/-- Row factor scores F = D_r.dot(P).dot(diagsvd(s[:num2ret], numitems,
num2ret)) of lines 133-135, dense mode, where numitems = len(X) = n. -/
noncomputable def rowFactorScores (X : Matrix (Fin n) (Fin m) ℝ)
    (P : Matrix (Fin n) (Fin n) ℝ) (svals : List ℝ) (benzecri : Bool)
    (L : List ℝ) (num2ret : ℕ) : Matrix (Fin n) (Fin num2ret) ℝ :=
  Dr X * P * diagsvdM ((scaleVec benzecri L svals).take num2ret) n num2ret

/-- Column factor scores G = D_c . Q.T . diagsvd(s[:num2ret], len(Q),
num2ret) of lines 161-163, dense mode, where len(Q) = m.  Note the transpose
on Q. -/
noncomputable def colFactorScores (X : Matrix (Fin n) (Fin m) ℝ)
    (Q : Matrix (Fin m) (Fin m) ℝ) (svals : List ℝ) (benzecri : Bool)
    (L : List ℝ) (num2ret : ℕ) : Matrix (Fin m) (Fin num2ret) ℝ :=
  Dc X * Q.transpose * diagsvdM ((scaleVec benzecri L svals).take num2ret) m num2ret

/-- Row profiles DF.div(DF.sum(axis=1), axis=0) of line 231. -/
noncomputable def rowProfiles {n2 : ℕ} (DF : Matrix (Fin n2) (Fin m) ℝ) :
    Matrix (Fin n2) (Fin m) ℝ :=
  Matrix.of fun i j => DF i j / (∑ t, DF i t)

/-- Supplementary row factor scores fs_r_sup (lines 216-231), evaluated in
the fresh-fit situation the round-trip claim describes: G does not exist yet,
so line 223 computes it at N = self.rank (argument R below), and then the
result is rowProfiles(DF) . G . diagsvd(-1/s[:N], len(G.T), N) with
N = min(None-or-N, rank) = rank and s = -sqrt(self.E) if self.benzecri else
self.s (line 227); the trailing [:, :N] slice of line 231 is the identity at
this shape. -/
noncomputable def fs_r_sup {n2 : ℕ} (X : Matrix (Fin n) (Fin m) ℝ)
    (Q : Matrix (Fin m) (Fin m) ℝ) (svals : List ℝ) (benzecri : Bool)
    (E L : List ℝ) (R : ℕ) (DF : Matrix (Fin n2) (Fin m) ℝ) :
    Matrix (Fin n2) (Fin R) ℝ :=
  rowProfiles DF * colFactorScores X Q svals benzecri L R *
    diagsvdM (((scaleVec benzecri E svals).take R).map (fun x => -(1 / x))) R R

/-- The decomposition triple (P, svals, Q) produced by the dense backend is a
genuine SVD of M under the numpy conventions of line 97: M = P .
diagsvd(svals, n, m) . Q with orthogonal P and Q (the rows of Q are the right
singular vectors), min(n, m) singular values, nonnegative and sorted
descending. -/
def IsSVD (M : Matrix (Fin n) (Fin m) ℝ) (P : Matrix (Fin n) (Fin n) ℝ)
    (svals : List ℝ) (Q : Matrix (Fin m) (Fin m) ℝ) : Prop :=
  M = P * diagsvdM svals n m * Q ∧ P.transpose * P = 1 ∧ Q * Q.transpose = 1 ∧
  svals.length = min n m ∧ (∀ x ∈ svals, 0 ≤ x) ∧ svals.Sorted (· ≥ ·)

lemma fin_sum_ite_left {M : ℕ} (kv : ℕ) (h : kv < M) (f : Fin M → ℝ) :
    (∑ t : Fin M, if (t : ℕ) = kv then f t else 0) = f ⟨kv, h⟩ := by
  rw [Finset.sum_eq_single ⟨kv, h⟩]
  · simp
  · intro b _ hb
    rw [if_neg]
    intro hc
    exact hb (Fin.ext hc)
  · intro hc
    exact absurd (Finset.mem_univ _) hc

lemma mul_diagsvdM_apply {ι : Type*} [Fintype ι] {M N : ℕ}
    (A : Matrix ι (Fin M) ℝ) (v : List ℝ) (a : ι) (j : Fin N)
    (h : (j : ℕ) < M) :
    (A * diagsvdM v M N) a j = A a ⟨(j : ℕ), h⟩ * v.getD j 0 := by
  rw [Matrix.mul_apply]
  have hterm : ∀ t : Fin M, A a t * diagsvdM v M N t j =
      if (t : ℕ) = (j : ℕ) then A a t * v.getD t 0 else 0 := by
    intro t
    unfold diagsvdM
    simp only [Matrix.of_apply]
    split_ifs <;> simp
  rw [Finset.sum_congr rfl (fun t _ => hterm t), fin_sum_ite_left (j : ℕ) h]

lemma getD_map_of_lt (f : ℝ → ℝ) (l : List ℝ) (k : ℕ) (h : k < l.length)
    (d : ℝ) : (l.map f).getD k d = f l[k] := by
  rw [List.getD_eq_getElem _ _ (by simpa using h), List.getElem_map]

lemma getD_take_of_lt (l : List ℝ) (R k : ℕ) (h : k < R) (d : ℝ) :
    (l.take R).getD k d = l.getD k d := by
  rw [List.getD_eq_getElem?_getD, List.getElem?_take, if_pos h,
    ← List.getD_eq_getElem?_getD]

lemma corrZ_apply (X : Matrix (Fin n) (Fin m) ℝ) (i : Fin n) (j : Fin m) :
    corrZ X i j = (totalSum X)⁻¹ * X i j := rfl

lemma sum_colMass (X : Matrix (Fin n) (Fin m) ℝ) (hS : totalSum X ≠ 0) :
    ∑ j, colMass X j = 1 := by
  unfold colMass
  rw [Finset.sum_comm]
  have : ∀ i : Fin n, ∑ j, corrZ X i j = (totalSum X)⁻¹ * ∑ j, X i j := by
    intro i
    rw [Finset.mul_sum]
    exact Finset.sum_congr rfl (fun j _ => corrZ_apply X i j)
  rw [Finset.sum_congr rfl (fun i _ => this i), ← Finset.mul_sum]
  exact inv_mul_cancel₀ hS

lemma rowSumX_eq (X : Matrix (Fin n) (Fin m) ℝ) (hS : totalSum X ≠ 0)
    (i : Fin n) : ∑ t, X i t = totalSum X * rowMass X i := by
  unfold rowMass
  rw [Finset.mul_sum]
  refine Finset.sum_congr rfl (fun t _ => ?_)
  rw [corrZ_apply, ← mul_assoc, mul_inv_cancel₀ hS, one_mul]

lemma X_eq_S_mul_corrZ (X : Matrix (Fin n) (Fin m) ℝ) (hS : totalSum X ≠ 0)
    (i : Fin n) (j : Fin m) : X i j = totalSum X * corrZ X i j := by
  rw [corrZ_apply, ← mul_assoc, mul_inv_cancel₀ hS, one_mul]

lemma resid_apply (X : Matrix (Fin n) (Fin m) ℝ) (i : Fin n) (j : Fin m) :
    resid X i j = (Real.sqrt (rowMass X i))⁻¹ *
      (corrZ X i j - rowMass X i * colMass X j) *
      (Real.sqrt (colMass X j))⁻¹ := by
  unfold resid Dr Dc
  rw [Matrix.mul_diagonal, Matrix.diagonal_mul]
  simp [Matrix.sub_apply, Matrix.of_apply]

lemma corrZ_decomp (X : Matrix (Fin n) (Fin m) ℝ) (i : Fin n) (j : Fin m)
    (hr : 0 < rowMass X i) (hc : 0 < colMass X j) :
    corrZ X i j = rowMass X i * colMass X j +
      Real.sqrt (rowMass X i) * Real.sqrt (colMass X j) * resid X i j := by
  rw [resid_apply]
  have hrs : Real.sqrt (rowMass X i) ≠ 0 := ne_of_gt (Real.sqrt_pos.mpr hr)
  have hcs : Real.sqrt (colMass X j) ≠ 0 := ne_of_gt (Real.sqrt_pos.mpr hc)
  field_simp

lemma resid_mulVec_sqrt_colMass (X : Matrix (Fin n) (Fin m) ℝ)
    (hS : totalSum X ≠ 0) (hc : ∀ j, 0 < colMass X j) :
    (resid X).mulVec (fun j => Real.sqrt (colMass X j)) = 0 := by
  funext i
  show ∑ j, resid X i j * Real.sqrt (colMass X j) = 0
  have hterm : ∀ j : Fin m, resid X i j * Real.sqrt (colMass X j) =
      (Real.sqrt (rowMass X i))⁻¹ *
        (corrZ X i j - rowMass X i * colMass X j) := by
    intro j
    rw [resid_apply]
    have hcs : Real.sqrt (colMass X j) ≠ 0 := ne_of_gt (Real.sqrt_pos.mpr (hc j))
    field_simp
    rw [mul_div_mul_right _ _ hcs]
  rw [Finset.sum_congr rfl (fun j _ => hterm j), ← Finset.mul_sum]
  have hzero : ∑ j, (corrZ X i j - rowMass X i * colMass X j) = 0 := by
    rw [Finset.sum_sub_distrib, ← Finset.mul_sum, sum_colMass X hS, mul_one]
    exact sub_self _
  rw [hzero, mul_zero]

lemma Q_row_orthogonal_sqrt_colMass (X : Matrix (Fin n) (Fin m) ℝ)
    (P : Matrix (Fin n) (Fin n) ℝ) (svals : List ℝ)
    (Q : Matrix (Fin m) (Fin m) ℝ)
    (hsvd : IsSVD (resid X) P svals Q) (hS : totalSum X ≠ 0)
    (hc : ∀ j, 0 < colMass X j) (jn : Fin n) (hjm : (jn : ℕ) < m)
    (hnz : svals.getD jn 0 ≠ 0) :
    ∑ a, Q ⟨(jn : ℕ), hjm⟩ a * Real.sqrt (colMass X a) = 0 := by
  obtain ⟨hM, hPo, hQo, hlen, -, -⟩ := hsvd
  have h0 : (P * diagsvdM svals n m * Q).mulVec
      (fun a => Real.sqrt (colMass X a)) = 0 := by
    rw [← hM]
    exact resid_mulVec_sqrt_colMass X hS hc
  have h2 : P.mulVec ((diagsvdM svals n m * Q).mulVec
      (fun a => Real.sqrt (colMass X a))) = 0 := by
    rw [Matrix.mulVec_mulVec, ← Matrix.mul_assoc]
    exact h0
  have h1 : (diagsvdM svals n m * Q).mulVec
      (fun a => Real.sqrt (colMass X a)) = 0 := by
    have h3 := congrArg (fun v => P.transpose.mulVec v) h2
    simp only [Matrix.mulVec_mulVec, ← Matrix.mul_assoc, hPo, Matrix.one_mul,
      Matrix.mulVec_zero] at h3
    exact h3
  have h4 := congrFun h1 jn
  rw [← Matrix.mulVec_mulVec] at h4
  have h5 : (diagsvdM svals n m).mulVec
      (Q.mulVec (fun a => Real.sqrt (colMass X a))) jn =
      svals.getD jn 0 *
        Q.mulVec (fun a => Real.sqrt (colMass X a)) ⟨(jn : ℕ), hjm⟩ := by
    show ∑ t : Fin m, diagsvdM svals n m jn t *
        Q.mulVec (fun a => Real.sqrt (colMass X a)) t = _
    have hterm : ∀ t : Fin m, diagsvdM svals n m jn t *
        Q.mulVec (fun a => Real.sqrt (colMass X a)) t =
        if (t : ℕ) = (jn : ℕ) then
          svals.getD jn 0 * Q.mulVec (fun a => Real.sqrt (colMass X a)) t
        else 0 := by
      intro t
      unfold diagsvdM
      simp only [Matrix.of_apply]
      by_cases hcase : (jn : ℕ) = (t : ℕ)
      · rw [if_pos hcase, if_pos hcase.symm]
      · rw [if_neg hcase, if_neg (fun hcc => hcase hcc.symm), zero_mul]
    rw [Finset.sum_congr rfl (fun t _ => hterm t),
      fin_sum_ite_left (jn : ℕ) hjm]
  rw [h5] at h4
  have h6 : Q.mulVec (fun a => Real.sqrt (colMass X a)) ⟨(jn : ℕ), hjm⟩ = 0 := by
    rcases mul_eq_zero.mp h4 with hcase | hcase
    · exact absurd hcase hnz
    · exact hcase
  simpa [Matrix.mulVec, Matrix.dotProduct] using h6

/-- Claim C3, amended: applied to the exact table used for the fit, with a
genuine SVD from the backend, nonzero total, positive column masses and
nonzero retained singular values, fs_r_sup reproduces at every row of
non-zero mass the NEGATION of the raw-singular-value row factor scores,
-(D_r . P . diagsvd(s[:rank], n, rank)): with Benzécri disabled this is
exactly -F (a global sign flip away from the claimed F), and with Benzécri
enabled F scales axis j by -sqrt(L[j]) instead of the -s[j] produced here,
so F is reproduced neither in sign nor in per-axis scale. -/
theorem fs_r_sup_negates_raw_scores
    (X : Matrix (Fin n) (Fin m) ℝ) (P : Matrix (Fin n) (Fin n) ℝ)
    (svals : List ℝ) (Q : Matrix (Fin m) (Fin m) ℝ) (benzecri : Bool)
    (E L : List ℝ) (R : ℕ)
    (hsvd : IsSVD (resid X) P svals Q)
    (hS : totalSum X ≠ 0)
    (hc : ∀ a, 0 < colMass X a)
    (hL : L = E.take R)
    (hsval : ∀ t, t < R → svals.getD t 0 ≠ 0)
    (hE : benzecri = true → ∀ t, t < R → 0 < E.getD t 0)
    (i : Fin n) (hi : 0 < rowMass X i) (j : Fin R) :
    fs_r_sup X Q svals benzecri E L R X i j =
      - rowFactorScores X P svals false [] R i j := by
  obtain ⟨hM, hPo, hQo, hlen, hnn, hsort⟩ := hsvd
  have hjR : (j : ℕ) < R := j.isLt
  have hjs : (j : ℕ) < svals.length := by
    by_contra hcon
    push_neg at hcon
    exact hsval j hjR (List.getD_eq_default _ _ hcon)
  have hjn : (j : ℕ) < n := by
    rw [hlen] at hjs
    omega
  have hjm : (j : ℕ) < m := by
    rw [hlen] at hjs
    omega
  have hRE : benzecri = true → R ≤ E.length := by
    intro hb
    by_contra hcon
    push_neg at hcon
    have h1 := hE hb E.length (by omega)
    rw [List.getD_eq_default _ _ (le_refl _)] at h1
    exact lt_irrefl 0 h1
  -- the scaling entries used for G and for the inverse diagonal agree
  have hsg : (scaleVec benzecri L svals).getD j 0 =
      (scaleVec benzecri E svals).getD j 0 := by
    cases benzecri with
    | false => rfl
    | true =>
        have hjE : (j : ℕ) < E.length := by
          have := hRE rfl
          omega
        have hLlen : (j : ℕ) < L.length := by
          rw [hL, List.length_take]
          omega
        unfold scaleVec
        rw [if_pos rfl, if_pos rfl,
          getD_map_of_lt _ L _ hLlen, getD_map_of_lt _ E _ hjE]
        congr 1
        rw [← List.getD_eq_getElem L 0 hLlen, ← List.getD_eq_getElem E 0 hjE,
          hL, getD_take_of_lt E R _ hjR]
  have hssup : (scaleVec benzecri E svals).getD j 0 ≠ 0 := by
    cases benzecri with
    | false =>
        unfold scaleVec
        rw [if_neg (by simp)]
        exact hsval j hjR
    | true =>
        have hjE : (j : ℕ) < E.length := by
          have := hRE rfl
          omega
        unfold scaleVec
        rw [if_pos rfl, getD_map_of_lt _ E _ hjE]
        have h1 : 0 < E[(j : ℕ)] := by
          rw [← List.getD_eq_getElem E 0 hjE]
          exact hE rfl j hjR
        have h2 := Real.sqrt_pos.mpr h1
        intro hcon
        rw [neg_eq_zero] at hcon
        linarith
  -- evaluate the uncorrected row factor score entry
  have hscale_false : ((scaleVec false [] svals).take R).getD j 0 =
      svals.getD j 0 := by
    unfold scaleVec
    rw [if_neg (by simp), getD_take_of_lt _ _ _ hjR]
  have hRHS : rowFactorScores X P svals false [] R i j =
      (Real.sqrt (rowMass X i))⁻¹ * P i ⟨(j : ℕ), hjn⟩ * svals.getD j 0 := by
    unfold rowFactorScores
    rw [mul_diagsvdM_apply _ _ _ _ hjn, hscale_false]
    unfold Dr
    rw [Matrix.diagonal_mul]
  -- evaluate the column factor score entries
  have hG : ∀ a : Fin m, colFactorScores X Q svals benzecri L R a j =
      (Real.sqrt (colMass X a))⁻¹ * Q ⟨(j : ℕ), hjm⟩ a *
        (scaleVec benzecri L svals).getD j 0 := by
    intro a
    unfold colFactorScores
    rw [mul_diagsvdM_apply _ _ _ _ hjm, getD_take_of_lt _ _ _ hjR]
    unfold Dc
    rw [Matrix.diagonal_mul, Matrix.transpose_apply]
  -- the row profile in terms of the correspondence matrix
  have hRP : ∀ a : Fin m, rowProfiles X i a = corrZ X i a / rowMass X i := by
    intro a
    unfold rowProfiles
    simp only [Matrix.of_apply]
    rw [rowSumX_eq X hS i, X_eq_S_mul_corrZ X hS i a, mul_div_mul_left _ _ hS]
  -- termwise split of the projection sum
  have hterm : ∀ a : Fin m,
      rowProfiles X i a * ((Real.sqrt (colMass X a))⁻¹ * Q ⟨(j : ℕ), hjm⟩ a) =
      Real.sqrt (colMass X a) * Q ⟨(j : ℕ), hjm⟩ a +
        (Real.sqrt (rowMass X i))⁻¹ * (resid X i a * Q ⟨(j : ℕ), hjm⟩ a) := by
    intro a
    rw [hRP a, corrZ_decomp X i a hi (hc a)]
    set R2 := Real.sqrt (rowMass X i) with hR2def
    set C2 := Real.sqrt (colMass X a) with hC2def
    have hrr : R2 * R2 = rowMass X i := Real.mul_self_sqrt (le_of_lt hi)
    have hcc : C2 * C2 = colMass X a := Real.mul_self_sqrt (le_of_lt (hc a))
    have hR2 : R2 ≠ 0 := by
      rw [hR2def]
      exact ne_of_gt (Real.sqrt_pos.mpr hi)
    have hC2 : C2 ≠ 0 := by
      rw [hC2def]
      exact ne_of_gt (Real.sqrt_pos.mpr (hc a))
    rw [← hrr, ← hcc]
    field_simp
    ring
  -- the mass-orthogonality of the retained right singular vector
  have horth : ∑ a, Q ⟨(j : ℕ), hjm⟩ a * Real.sqrt (colMass X a) = 0 :=
    Q_row_orthogonal_sqrt_colMass X P svals Q
      ⟨hM, hPo, hQo, hlen, hnn, hsort⟩ hS hc ⟨(j : ℕ), hjn⟩ hjm
      (hsval j hjR)
  -- the residual-projection identity
  have hPSig : resid X * Q.transpose = P * diagsvdM svals n m := by
    rw [hM, Matrix.mul_assoc, hQo, Matrix.mul_one]
  have hprojsum : ∑ a, resid X i a * Q ⟨(j : ℕ), hjm⟩ a =
      P i ⟨(j : ℕ), hjn⟩ * svals.getD j 0 := by
    have h1 : ∑ a, resid X i a * Q ⟨(j : ℕ), hjm⟩ a =
        (resid X * Q.transpose) i ⟨(j : ℕ), hjm⟩ := by
      rw [Matrix.mul_apply]
      exact Finset.sum_congr rfl (fun a _ => by rw [Matrix.transpose_apply])
    rw [h1, hPSig, mul_diagsvdM_apply P svals i ⟨(j : ℕ), hjm⟩ hjn]
  -- assemble the projection sum
  have hT : ∑ a, rowProfiles X i a *
      ((Real.sqrt (colMass X a))⁻¹ * Q ⟨(j : ℕ), hjm⟩ a) =
      (Real.sqrt (rowMass X i))⁻¹ * (P i ⟨(j : ℕ), hjn⟩ * svals.getD j 0) := by
    have h1 : ∑ a, rowProfiles X i a *
        ((Real.sqrt (colMass X a))⁻¹ * Q ⟨(j : ℕ), hjm⟩ a) =
        ∑ a, (Real.sqrt (colMass X a) * Q ⟨(j : ℕ), hjm⟩ a +
          (Real.sqrt (rowMass X i))⁻¹ * (resid X i a * Q ⟨(j : ℕ), hjm⟩ a)) :=
      Finset.sum_congr rfl (fun a _ => hterm a)
    have h2 : ∑ a, Real.sqrt (colMass X a) * Q ⟨(j : ℕ), hjm⟩ a = 0 := by
      have h3 : ∑ a, Real.sqrt (colMass X a) * Q ⟨(j : ℕ), hjm⟩ a =
          ∑ a, Q ⟨(j : ℕ), hjm⟩ a * Real.sqrt (colMass X a) :=
        Finset.sum_congr rfl (fun a _ => mul_comm _ _)
      rw [h3]
      exact horth
    rw [h1, Finset.sum_add_distrib, h2, ← Finset.mul_sum, hprojsum, zero_add]
  -- the inverse diagonal entry
  have hvinvlen : (j : ℕ) < ((scaleVec benzecri E svals).take R).length := by
    rw [List.length_take]
    cases benzecri with
    | false =>
        unfold scaleVec
        rw [if_neg (by simp)]
        omega
    | true =>
        unfold scaleVec
        rw [if_pos rfl, List.length_map]
        have := hRE rfl
        omega
  have hvinv : ((((scaleVec benzecri E svals).take R).map
      (fun x => -(1 / x))).getD j 0) =
      -(1 / (scaleVec benzecri E svals).getD j 0) := by
    rw [getD_map_of_lt _ _ _ hvinvlen]
    congr 1
    rw [← List.getD_eq_getElem _ 0 hvinvlen, getD_take_of_lt _ _ _ hjR]
  -- expand the supplementary projection
  have hRPG : (rowProfiles X * colFactorScores X Q svals benzecri L R) i j =
      (scaleVec benzecri L svals).getD j 0 *
        ((Real.sqrt (rowMass X i))⁻¹ *
          (P i ⟨(j : ℕ), hjn⟩ * svals.getD j 0)) := by
    have h1 : (rowProfiles X * colFactorScores X Q svals benzecri L R) i j =
        ∑ a, rowProfiles X i a *
          ((Real.sqrt (colMass X a))⁻¹ * Q ⟨(j : ℕ), hjm⟩ a *
            (scaleVec benzecri L svals).getD j 0) := by
      rw [Matrix.mul_apply]
      exact Finset.sum_congr rfl (fun a _ => by rw [hG a])
    have h2 : ∑ a, rowProfiles X i a *
        ((Real.sqrt (colMass X a))⁻¹ * Q ⟨(j : ℕ), hjm⟩ a *
          (scaleVec benzecri L svals).getD j 0) =
        (scaleVec benzecri L svals).getD j 0 *
          ∑ a, rowProfiles X i a *
            ((Real.sqrt (colMass X a))⁻¹ * Q ⟨(j : ℕ), hjm⟩ a) := by
      rw [Finset.mul_sum]
      exact Finset.sum_congr rfl (fun a _ => by ring)
    rw [h1, h2, hT]
  unfold fs_r_sup
  rw [mul_diagsvdM_apply _ _ _ _ hjR]
  simp only [Fin.eta]
  rw [hvinv, hRPG, hRHS, hsg]
  have hc1 : (scaleVec benzecri E svals).getD (j : ℕ) 0 *
      (1 / (scaleVec benzecri E svals).getD (j : ℕ) 0) = 1 := by
    rw [mul_one_div, div_self hssup]
  linear_combination
    (-((Real.sqrt (rowMass X i))⁻¹ *
      (P i ⟨(j : ℕ), hjn⟩ * svals.getD (j : ℕ) 0))) * hc1

end MatrixModel

section ConcreteFit

open Matrix

/-- Square root of 2, the only irrational the concrete fit below needs. -/
noncomputable def sq2 : ℝ := Real.sqrt 2

/-- A concrete pre-coded 2 x 2 table, processed by fit with the default
configuration (cols = None, n_cols = None, benzecri = True, tol = 1e-4),
so K = len(DF.columns) = 2. -/
noncomputable def X0 : Matrix (Fin 2) (Fin 2) ℝ := !![9, 1; 1, 9]

/-- Left singular vectors of resid X0, a valid dense-backend output. -/
noncomputable def P0 : Matrix (Fin 2) (Fin 2) ℝ :=
  (sq2 / 2) • (!![1, 1; -1, 1] : Matrix (Fin 2) (Fin 2) ℝ)

/-- Right singular vectors (as rows) of resid X0. -/
noncomputable def Q0 : Matrix (Fin 2) (Fin 2) ℝ :=
  (sq2 / 2) • (!![1, -1; 1, 1] : Matrix (Fin 2) (Fin 2) ℝ)

/-- Singular values of resid X0, descending. -/
noncomputable def svals0 : List ℝ := [4 / 5, 0]

lemma sq2_mul_self : sq2 * sq2 = 2 := Real.mul_self_sqrt (by norm_num)

lemma sq2_half_mul_half : sq2 / 2 * (sq2 / 2) = 1 / 2 := by
  linear_combination (1 / 4) * sq2_mul_self

lemma sq2_mul_half : sq2 * (sq2 / 2) = 1 := by
  linear_combination (1 / 2) * sq2_mul_self

lemma totalSum_X0 : totalSum X0 = 20 := by
  simp [totalSum, X0, Fin.sum_univ_two]
  norm_num

lemma rowMass_X0 (i : Fin 2) : rowMass X0 i = 1 / 2 := by
  have h : ∀ k : Fin 2, rowMass X0 k = 1 / 2 := by
    rw [Fin.forall_fin_two]
    constructor
    · unfold rowMass
      rw [Fin.sum_univ_two, corrZ_apply, corrZ_apply, totalSum_X0]
      show (20 : ℝ)⁻¹ * 9 + (20 : ℝ)⁻¹ * 1 = 1 / 2
      norm_num
    · unfold rowMass
      rw [Fin.sum_univ_two, corrZ_apply, corrZ_apply, totalSum_X0]
      show (20 : ℝ)⁻¹ * 1 + (20 : ℝ)⁻¹ * 9 = 1 / 2
      norm_num
  exact h i

lemma colMass_X0 (a : Fin 2) : colMass X0 a = 1 / 2 := by
  have h : ∀ k : Fin 2, colMass X0 k = 1 / 2 := by
    rw [Fin.forall_fin_two]
    constructor
    · unfold colMass
      rw [Fin.sum_univ_two, corrZ_apply, corrZ_apply, totalSum_X0]
      show (20 : ℝ)⁻¹ * 9 + (20 : ℝ)⁻¹ * 1 = 1 / 2
      norm_num
    · unfold colMass
      rw [Fin.sum_univ_two, corrZ_apply, corrZ_apply, totalSum_X0]
      show (20 : ℝ)⁻¹ * 1 + (20 : ℝ)⁻¹ * 9 = 1 / 2
      norm_num
  exact h a

lemma sqrt_half_inv : (Real.sqrt ((1 : ℝ) / 2))⁻¹ = sq2 := by
  rw [show (1 : ℝ) / 2 = 2⁻¹ by norm_num, Real.sqrt_inv, inv_inv]
  rfl

lemma Dr_X0 : Dr X0 = sq2 • (1 : Matrix (Fin 2) (Fin 2) ℝ) := by
  unfold Dr
  ext i j
  by_cases h : i = j
  · subst h
    simp [Matrix.diagonal_apply_eq, Matrix.one_apply, rowMass_X0,
      sqrt_half_inv, sq2]
  · simp [Matrix.diagonal_apply_ne _ h, Matrix.one_apply, h]

lemma Dc_X0 : Dc X0 = sq2 • (1 : Matrix (Fin 2) (Fin 2) ℝ) := by
  unfold Dc
  ext i j
  by_cases h : i = j
  · subst h
    simp [Matrix.diagonal_apply_eq, Matrix.one_apply, colMass_X0,
      sqrt_half_inv, sq2]
  · simp [Matrix.diagonal_apply_ne _ h, Matrix.one_apply, h]

lemma resid_X0 : resid X0 = !![2 / 5, -(2 / 5); -(2 / 5), 2 / 5] := by
  apply Matrix.ext
  rw [Fin.forall_fin_two]
  refine ⟨?_, ?_⟩ <;> rw [Fin.forall_fin_two] <;> refine ⟨?_, ?_⟩ <;>
    rw [resid_apply, rowMass_X0, colMass_X0, corrZ_apply, totalSum_X0,
      sqrt_half_inv]
  · show sq2 * ((20 : ℝ)⁻¹ * 9 - 1 / 2 * (1 / 2)) * sq2 = 2 / 5
    linear_combination (1 / 5) * sq2_mul_self
  · show sq2 * ((20 : ℝ)⁻¹ * 1 - 1 / 2 * (1 / 2)) * sq2 = -(2 / 5)
    linear_combination (-(1 / 5)) * sq2_mul_self
  · show sq2 * ((20 : ℝ)⁻¹ * 1 - 1 / 2 * (1 / 2)) * sq2 = -(2 / 5)
    linear_combination (-(1 / 5)) * sq2_mul_self
  · show sq2 * ((20 : ℝ)⁻¹ * 9 - 1 / 2 * (1 / 2)) * sq2 = 2 / 5
    linear_combination (1 / 5) * sq2_mul_self

lemma diagsvd0 : diagsvdM svals0 2 2 = !![4 / 5, 0; 0, 0] := by
  ext i j
  fin_cases i <;> fin_cases j <;> simp [diagsvdM, svals0]

lemma svd_X0 : IsSVD (resid X0) P0 svals0 Q0 := by
  refine ⟨?_, ?_, ?_, rfl, ?_, ?_⟩
  · rw [resid_X0, diagsvd0]
    unfold P0 Q0
    rw [Matrix.smul_mul, Matrix.smul_mul, Matrix.mul_smul, smul_smul,
      sq2_half_mul_half, Matrix.mul_fin_two, Matrix.mul_fin_two]
    ext i j
    fin_cases i <;> fin_cases j <;> simp [Matrix.smul_apply] <;> norm_num
  · unfold P0
    rw [Matrix.transpose_smul, Matrix.smul_mul, Matrix.mul_smul, smul_smul,
      sq2_half_mul_half]
    rw [show (!![1, 1; -1, 1] : Matrix (Fin 2) (Fin 2) ℝ)ᵀ = !![1, -1; 1, 1]
      from by ext i j; fin_cases i <;> fin_cases j <;>
        simp [Matrix.transpose_apply]]
    rw [Matrix.mul_fin_two]
    ext i j
    fin_cases i <;> fin_cases j <;>
      simp [Matrix.smul_apply, Matrix.one_apply] <;> norm_num
  · unfold Q0
    rw [Matrix.transpose_smul, Matrix.smul_mul, Matrix.mul_smul, smul_smul,
      sq2_half_mul_half]
    rw [show (!![1, -1; 1, 1] : Matrix (Fin 2) (Fin 2) ℝ)ᵀ = !![1, 1; -1, 1]
      from by ext i j; fin_cases i <;> fin_cases j <;>
        simp [Matrix.transpose_apply]]
    rw [Matrix.mul_fin_two]
    ext i j
    fin_cases i <;> fin_cases j <;>
      simp [Matrix.smul_apply, Matrix.one_apply] <;> norm_num
  · intro x hx
    simp only [svals0, List.mem_cons, List.not_mem_nil, or_false] at hx
    rcases hx with rfl | rfl <;> norm_num
  · unfold svals0
    simp [List.sorted_cons]
    norm_num

lemma benzecriTerm_E0 : benzecriTerm 2 (((4 : ℝ) / 5) ^ 2) = 49 / 625 := by
  unfold benzecriTerm
  rw [if_pos (by norm_num)]
  norm_num

lemma benzecriTerm_E0_zero : benzecriTerm 2 ((0 : ℝ) ^ 2) = 0 := by
  unfold benzecriTerm
  rw [if_neg (by norm_num)]

lemma fitE_X0 : fitE true 2 svals0 = [(49 / 625 : ℝ), 0] := by
  unfold fitE
  rw [if_pos rfl]
  unfold apply_benzecri_correction svals0
  simp only [List.map_cons, List.map_nil]
  rw [benzecriTerm_E0, benzecriTerm_E0_zero]

lemma fitRank_X0 : fitRank (fitE true 2 svals0) ((1 : ℝ) / 10000) = 1 := by
  rw [fitE_X0]
  unfold fitRank npArgmaxBelow
  have hf : List.findIdx (fun e => decide (e < (1 : ℝ) / 10000))
      [(49 / 625 : ℝ), 0] = 1 := by
    rw [List.findIdx_cons,
      decide_eq_false (show ¬ (49 / 625 : ℝ) < 1 / 10000 by norm_num)]
    rw [show (cond false 0 (List.findIdx
        (fun e => decide (e < (1 : ℝ) / 10000)) [0] + 1)) =
      List.findIdx (fun e => decide (e < (1 : ℝ) / 10000)) [0] + 1 from rfl]
    rw [List.findIdx_cons,
      decide_eq_true (show (0 : ℝ) < 1 / 10000 by norm_num)]
    rfl
  rw [hf]
  norm_num

lemma fitL_X0 : fitL (fitE true 2 svals0) ((1 : ℝ) / 10000) =
    [(49 / 625 : ℝ)] := by
  unfold fitL
  rw [fitRank_X0, fitE_X0]
  rfl

lemma sqrt_E0 : Real.sqrt ((49 : ℝ) / 625) = 7 / 25 := by
  rw [show (49 : ℝ) / 625 = (7 / 25) ^ 2 by norm_num,
    Real.sqrt_sq (by norm_num)]

lemma scale_L0 : (scaleVec true [(49 / 625 : ℝ)] svals0).take 1 =
    [-(7 / 25 : ℝ)] := by
  unfold scaleVec
  rw [if_pos rfl, List.map_cons, List.map_nil, sqrt_E0]
  rfl

lemma scale_E0 : ((scaleVec true [(49 / 625 : ℝ), 0] svals0).take 1).map
    (fun x => -(1 / x)) = [(25 / 7 : ℝ)] := by
  unfold scaleVec
  rw [if_pos rfl, List.map_cons, List.map_cons, List.map_nil, sqrt_E0]
  show List.map (fun x => -(1 / x)) [-(7 / 25 : ℝ)] = [(25 / 7 : ℝ)]
  rw [List.map_cons, List.map_nil]
  norm_num

lemma AS_prod : (!![1, 1; -1, 1] : Matrix (Fin 2) (Fin 2) ℝ) *
    diagsvdM [-(7 / 25 : ℝ)] 2 1 = !![-(7 / 25 : ℝ); 7 / 25] := by
  ext i j
  fin_cases i <;> fin_cases j <;>
    simp [Matrix.mul_apply, Fin.sum_univ_two, diagsvdM] <;> norm_num

lemma G_X0 : colFactorScores X0 Q0 svals0 true [(49 / 625 : ℝ)] 1 =
    !![-(7 / 25 : ℝ); 7 / 25] := by
  unfold colFactorScores
  rw [scale_L0, Dc_X0]
  rw [show Q0ᵀ = (sq2 / 2) • (!![1, 1; -1, 1] : Matrix (Fin 2) (Fin 2) ℝ)
    from by
      unfold Q0
      rw [Matrix.transpose_smul]
      congr 1
      ext i j
      fin_cases i <;> fin_cases j <;> simp [Matrix.transpose_apply]]
  rw [Matrix.smul_mul, Matrix.one_mul, smul_smul, sq2_mul_half, one_smul,
    AS_prod]

lemma F_X0 : rowFactorScores X0 P0 svals0 true [(49 / 625 : ℝ)] 1 =
    !![-(7 / 25 : ℝ); 7 / 25] := by
  unfold rowFactorScores
  rw [scale_L0, Dr_X0]
  unfold P0
  rw [Matrix.smul_mul, Matrix.one_mul, smul_smul, sq2_mul_half, one_smul,
    AS_prod]

lemma RP_X0 : rowProfiles X0 = !![(9 : ℝ) / 10, 1 / 10; 1 / 10, 9 / 10] := by
  ext i j
  fin_cases i <;> fin_cases j <;>
    simp [rowProfiles, X0, Fin.sum_univ_two] <;> norm_num

lemma fs_X0 : fs_r_sup X0 Q0 svals0 true [(49 / 625 : ℝ), 0]
    [(49 / 625 : ℝ)] 1 X0 = !![-(4 : ℝ) / 5; 4 / 5] := by
  unfold fs_r_sup
  rw [G_X0, RP_X0, scale_E0]
  rw [show diagsvdM [(25 / 7 : ℝ)] 1 1 = !![(25 / 7 : ℝ)] from by
    ext i j
    fin_cases i <;> fin_cases j <;> simp [diagsvdM]]
  ext i j
  fin_cases i <;> fin_cases j <;>
    simp [Matrix.mul_apply, Fin.sum_univ_two, Fin.sum_univ_one] <;> norm_num

/-- Claim C3, counterexample.  A default fit (Benzécri enabled, K = 2,
tol = 1e-4) of the table X0 = [[9,1],[1,9]], with a genuine SVD of its
standardized residual matrix as backend output (singular values 4/5 and 0),
has rank 1, both row masses 1/2 (nonzero), row factor scores F with first
entry -7/25 = -0.28 — but fs_r_sup applied to the very same table returns
-4/5 = -0.8 at that position: off by 0.52, far beyond floating tolerance,
because fs_r_sup rescales by the raw singular value 4/5 where F used the
corrected -sqrt(L[0]) = -7/25. -/
theorem fs_r_sup_roundtrip_claim_false :
    IsSVD (resid X0) P0 svals0 Q0 ∧
    fitE true 2 svals0 = [(49 / 625 : ℝ), 0] ∧
    fitRank (fitE true 2 svals0) ((1 : ℝ) / 10000) = 1 ∧
    fitL (fitE true 2 svals0) ((1 : ℝ) / 10000) = [(49 / 625 : ℝ)] ∧
    rowMass X0 0 = 1 / 2 ∧ rowMass X0 1 = 1 / 2 ∧
    fs_r_sup X0 Q0 svals0 true [(49 / 625 : ℝ), 0] [(49 / 625 : ℝ)] 1 X0 0 0 =
      -(4 / 5) ∧
    rowFactorScores X0 P0 svals0 true [(49 / 625 : ℝ)] 1 0 0 = -(7 / 25) ∧
    fs_r_sup X0 Q0 svals0 true [(49 / 625 : ℝ), 0] [(49 / 625 : ℝ)] 1 X0 0 0 ≠
      rowFactorScores X0 P0 svals0 true [(49 / 625 : ℝ)] 1 0 0 := by
  refine ⟨svd_X0, fitE_X0, fitRank_X0, fitL_X0, rowMass_X0 0, rowMass_X0 1,
    ?_, ?_, ?_⟩
  · rw [fs_X0]
    norm_num
  · rw [F_X0]
    norm_num
  · rw [fs_X0, F_X0]
    norm_num

/-- Witness for fs_r_sup_negates_raw_scores at the same concrete fit with
Benzécri disabled: the supplementary projection of the fit table reproduces
the negation of F there. -/
theorem fs_r_sup_negates_raw_scores_witness :
    totalSum X0 ≠ 0 ∧ 0 < colMass X0 0 ∧ 0 < colMass X0 1 ∧
    0 < rowMass X0 0 ∧
    fs_r_sup X0 Q0 svals0 false [] [] 1 X0 0 0 =
      - rowFactorScores X0 P0 svals0 false [] 1 0 0 :=
  ⟨by rw [totalSum_X0]; norm_num,
   by rw [colMass_X0 0]; norm_num,
   by rw [colMass_X0 1]; norm_num,
   by rw [rowMass_X0 0]; norm_num,
   fs_r_sup_negates_raw_scores X0 P0 svals0 Q0 false [] [] 1 svd_X0
     (by rw [totalSum_X0]; norm_num)
     (fun a => by rw [colMass_X0 a]; norm_num)
     rfl
     (fun t ht => by
       have h0 : t = 0 := by omega
       subst h0
       show svals0.getD 0 0 ≠ 0
       unfold svals0
       norm_num)
     (fun h => by cases h)
     0 (by rw [rowMass_X0 0]; norm_num) 0⟩

end ConcreteFit

end MCA
